import Mathlib

/-!
# Verification of the `python-lab-grab` frame-recording pipeline

Shallow embedding of the recording pipeline of the repository
(`lab_grab/ui/storage.py`, `lab_grab/ui/encoding.py`, and the parallel
`ic_grab` lineage).  Pure data manipulations of the Python source are
translated into executable Lean functions; the stateful thread loops are
sequentialised into explicit state-passing functions over the queue/pool
states that the source manipulates under its mutexes.
-/

namespace LabGrab

/-! ## Frames

A frame is a two-dimensional array of pixel values (the source uses numpy
arrays; we model the 2-D single-channel case, which is the `ndim == 2`
branch of `StorageService.prepare`).  `tobytes` is numpy's row-major
serialisation, and `convert` is the `frame.T` transposition installed as
`self._convert` by `prepare`.
-/

abbrev Pixel := Nat

abbrev Frame := List (List Pixel)

/-- `ndarray.tobytes()`: row-major serialisation of the array. -/
def Frame.tobytes (f : Frame) : List Pixel := f.flatten

/-- `self._convert = lambda frame: frame.T` (the 2-D branch of `prepare`):
the transpose of the array.  numpy arrays are rectangular, so the transpose
of an `r × c` array is the `c × r` array whose `j`-th row collects the
`j`-th entry of every input row. -/
def convert (f : Frame) : Frame :=
  (List.range ((f.head?.map List.length).getD 0)).map
    (fun j => f.map (fun row => row.getD j 0))

/-- `self._empty = numpy.zeros(**descriptor.numpy_formatter)`: the zeroed
filler frame, `rows` rows by `cols` columns. -/
def emptyFrame (rows cols : Nat) : Frame :=
  List.replicate rows (List.replicate cols 0)

/-- The frame is a rectangular `rows × cols` array. -/
def Frame.isRect (f : Frame) (rows cols : Nat) : Prop :=
  f.length = rows ∧ ∀ r ∈ f, r.length = cols

theorem tobytes_length_of_isRect {f : Frame} {rows cols : Nat}
    (h : f.isRect rows cols) : f.tobytes.length = rows * cols := by
  obtain ⟨hlen, hrow⟩ := h
  unfold Frame.tobytes
  induction f generalizing rows with
  | nil => simp [← hlen]
  | cons r rest ih =>
    cases rows with
    | zero => simp at hlen
    | succ n =>
      have hr : r.length = cols := hrow r (by simp)
      have hrest : rest.length = n := by simpa using hlen
      have := ih hrest (fun x hx => hrow x (by simp [hx]))
      simp only [List.flatten_cons, List.length_append, hr, this]
      ring

theorem emptyFrame_isRect (rows cols : Nat) :
    (emptyFrame rows cols).isRect rows cols := by
  constructor
  · simp [emptyFrame]
  · intro r hr
    simp only [emptyFrame, List.mem_replicate] at hr
    simp [hr.2]

theorem emptyFrame_tobytes_zero (rows cols : Nat) :
    ∀ p ∈ (emptyFrame rows cols).tobytes, p = 0 := by
  intro p hp
  simp only [emptyFrame, Frame.tobytes, List.mem_flatten] at hp
  obtain ⟨r, hr, hpr⟩ := hp
  rw [List.mem_replicate] at hr
  rw [hr.2, List.mem_replicate] at hpr
  exact hpr.2

theorem convert_isRect {f : Frame} {rows cols : Nat}
    (hrows : 0 < rows) (h : f.isRect rows cols) :
    (convert f).isRect cols rows := by
  obtain ⟨hlen, hrow⟩ := h
  have hhead : (f.head?.map List.length).getD 0 = cols := by
    cases f with
    | nil => simp at hlen; omega
    | cons x xs =>
      simp only [List.head?_cons, Option.map_some, Option.getD_some]
      exact hrow x (by simp)
  constructor
  · simp [convert, hhead]
  · intro r hr
    simp only [convert, hhead, List.mem_map] at hr
    obtain ⟨j, _, rfl⟩ := hr
    simp [hlen]

/-! ## The deque

Both `BufferThread` and `WriterThread` keep their FIFO queue in a
`collections.deque`: producers call `appendleft`, the consumer loop calls
`pop` (which removes the *right* end).  We model the deque as a list whose
head is the left end.
-/

/-- `deque.appendleft(x)`. -/
def appendleft (q : List α) (x : α) : List α := x :: q

/-- `deque.pop()`: removes and returns the rightmost element, if any. -/
def popRight? (q : List α) : Option (α × List α) :=
  match q.getLast? with
  | none => none
  | some x => some (x, q.dropLast)

/-- Pushing a sequence of items in order (`appendleft` each). -/
def pushAll (q : List α) (items : List α) : List α :=
  items.foldl appendleft q

theorem pushAll_nil_eq_reverse (items : List α) :
    pushAll [] items = items.reverse := by
  have h : ∀ q : List α, pushAll q items = items.reverse ++ q := by
    induction items with
    | nil => intro q; simp [pushAll]
    | cons x xs ih =>
      intro q
      simp only [pushAll, List.foldl_cons, List.reverse_cons]
      have := ih (appendleft q x)
      simp only [pushAll] at this
      rw [this, appendleft]
      simp
  simpa using h []

@[simp] theorem popRight?_append_singleton (ys : List α) (y : α) :
    popRight? (ys ++ [y]) = some (y, ys) := by
  simp [popRight?, List.getLast?_concat]

@[simp] theorem popRight?_nil : popRight? ([] : List α) = none := rfl

theorem popRight?_eq_some {q : List α} {x : α} {rest : List α}
    (h : popRight? q = some (x, rest)) : rest.length < q.length := by
  unfold popRight? at h
  cases hq : q.getLast? with
  | none => rw [hq] at h; exact absurd h (by simp)
  | some y =>
    rw [hq] at h
    obtain ⟨rfl, rfl⟩ : y = x ∧ q.dropLast = rest := by
      simpa using h
    have hne : q ≠ [] := by
      intro hnil; rw [hnil] at hq; simp at hq
    have hdl := List.length_dropLast q
    have hpos : 0 < q.length := List.length_pos.mpr hne
    omega

/-! ## `StorageService.write` (lab_grab lineage)

```python
def write(self, index, frame):
    try:
        sink = self._sink
        while index > self._nextindex:
            sink.push(self._empty)
            self._nextindex += 1
        sink.push(self._convert(frame))
        self._nextindex += 1
    except: ...
```

`prepare` sets `self._nextindex = 0` and `self._empty` to the zero frame of
the descriptor's shape.  We record the state as the expected-next index plus
the list of frames handed to `BufferThread.push`, in push order.
-/

structure StorageState where
  nextindex : Nat
  pushed    : List (Option Frame)
  deriving Repr, DecidableEq

/-- The state right after `prepare`: `self._nextindex = 0`, nothing pushed. -/
def prepareState : StorageState := ⟨0, []⟩

/-- The `while index > self._nextindex` filler loop of `write`:
each iteration pushes `self._empty` and increments `self._nextindex`. -/
def fillLoop (rows cols index : Nat) (s : StorageState) : StorageState :=
  if s.nextindex < index then
    fillLoop rows cols index
      ⟨s.nextindex + 1, s.pushed ++ [some (emptyFrame rows cols)]⟩
  else s
termination_by index - s.nextindex

/-- `StorageService.write(index, frame)` (the non-exceptional path):
run the filler loop, then push `self._convert(frame)` and increment. -/
def svcWrite (rows cols : Nat) (s : StorageState) (index : Nat)
    (frame : Frame) : StorageState :=
  ⟨(fillLoop rows cols index s).nextindex + 1,
   (fillLoop rows cols index s).pushed ++ [some (convert frame)]⟩

/-- `StorageService.close`: `sink.push(None)` (the end-of-stream sentinel). -/
def svcClose (s : StorageState) : StorageState :=
  ⟨s.nextindex, s.pushed ++ [none]⟩

/-- A sequence of `write(index, frame)` calls, in order. -/
def writeIndexed (rows cols : Nat) (s : StorageState)
    (calls : List (Nat × Frame)) : StorageState :=
  calls.foldl (fun s c => svcWrite rows cols s c.1 c.2) s

theorem fillLoop_eq_of_le {rows cols index : Nat} {s : StorageState}
    (h : index ≤ s.nextindex) : fillLoop rows cols index s = s := by
  unfold fillLoop
  simp [Nat.not_lt.mpr h]

theorem fillLoop_spec (rows cols : Nat) (index : Nat) (s : StorageState)
    (h : s.nextindex ≤ index) :
    fillLoop rows cols index s =
      ⟨index, s.pushed ++
        List.replicate (index - s.nextindex) (some (emptyFrame rows cols))⟩ := by
  obtain ⟨k, hk⟩ := Nat.le.dest h
  induction k generalizing s with
  | zero =>
    have heq : index = s.nextindex := by omega
    rw [fillLoop_eq_of_le (by omega)]
    cases s with
    | mk n p => simp_all
  | succ m ih =>
    have hlt : s.nextindex < index := by omega
    rw [fillLoop, if_pos hlt]
    have h2 := ih ⟨s.nextindex + 1, s.pushed ++ [some (emptyFrame rows cols)]⟩
      (show s.nextindex + 1 ≤ index by omega)
      (show s.nextindex + 1 + m = index by omega)
    rw [h2]
    have hm1 : index - (s.nextindex + 1) = m := by omega
    have hm2 : index - s.nextindex = m + 1 := by omega
    simp only [hm1, hm2, List.replicate_succ, List.append_assoc,
      List.singleton_append]

/-- The effect of one `write` call when a gap is present. -/
theorem svcWrite_gap {rows cols : Nat} {s : StorageState} {index : Nat}
    (frame : Frame) (h : s.nextindex < index) :
    svcWrite rows cols s index frame =
      ⟨index + 1,
       s.pushed ++ List.replicate (index - s.nextindex) (some (emptyFrame rows cols))
                ++ [some (convert frame)]⟩ := by
  unfold svcWrite
  rw [fillLoop_spec rows cols index s (Nat.le_of_lt h)]

/-- The effect of one `write` call with a late or duplicate index. -/
theorem svcWrite_late {rows cols : Nat} {s : StorageState} {index : Nat}
    (frame : Frame) (h : index ≤ s.nextindex) :
    svcWrite rows cols s index frame =
      ⟨s.nextindex + 1, s.pushed ++ [some (convert frame)]⟩ := by
  unfold svcWrite
  rw [fillLoop_eq_of_le h]

/-! ## `BufferThread.run`

The loop pops one queue entry at a time, passes it to `self._writer.push`,
and stops after passing `None`.  `deque.pop()` removes the rightmost
element, so draining the deque processes its reverse front to back; we
define the drain over the pop-order list and characterise it against
`popRight?` below.  The model is the drain of the queue once the producers
have stopped and no abort was signalled; the returned list is what the
writer thread receives, in push order.
-/

/-- One full drain of the buffer queue, over the entries in pop order. -/
def bufferPass : List (Option Frame) → List (Option Frame)
  | [] => []
  | none :: _ => [none]
  | some f :: rest => some f :: bufferPass rest

/-- `BufferThread.run` on a queue in deque representation. -/
def bufferDrain (q : List (Option Frame)) : List (Option Frame) :=
  bufferPass q.reverse

/-- `bufferDrain` follows the `deque.pop()` semantics of the loop. -/
theorem bufferDrain_eq_pop (q : List (Option Frame)) :
    bufferDrain q =
      match popRight? q with
      | none => []
      | some (none, _) => [none]
      | some (some f, rest) => some f :: bufferDrain rest := by
  rcases List.eq_nil_or_concat q with rfl | ⟨ys, y, rfl⟩
  · rfl
  · rw [List.concat_eq_append, popRight?_append_singleton]
    cases y with
    | none => simp [bufferDrain, List.reverse_append, bufferPass]
    | some f => simp [bufferDrain, List.reverse_append, bufferPass]

/-- FIFO: draining the deque built by `appendleft`-pushing `items` (a run of
frames closed by the sentinel) hands the items to the writer in push order. -/
theorem bufferDrain_fifo (items : List Frame) :
    bufferDrain (pushAll [] (items.map some ++ [none])) =
      items.map some ++ [none] := by
  rw [bufferDrain, pushAll_nil_eq_reverse, List.reverse_reverse]
  induction items with
  | nil => rfl
  | cons f fs ih =>
    simp only [List.map_cons, List.cons_append, bufferPass, List.append_eq, ih]

/-! ## `WriterThread` (`lab_grab/ui/encoding.py`)

```python
def _terminate_safely(self, proc):
    try:
        stdout, stderr = proc.communicate(timeout=self.DEFAULT_TIMEOUT)
    except TimeoutExpired:
        _LOGGER.error(...)
        proc.kill()
        stdout, stderr = proc.communicate()
    return stdout, stderr
```

The module imports neither `TimeoutExpired` (from `subprocess`) nor `_sys`
nor `_print_exc`: when `proc.communicate(timeout=...)` raises
`subprocess.TimeoutExpired`, evaluating the `except TimeoutExpired:` clause
raises `NameError` instead of matching, so the `proc.kill()` branch is
unreachable and the `NameError` propagates.
-/

/-- `DEFAULT_TIMEOUT = 3.0` (seconds), the bound passed to
`proc.communicate`. -/
def DEFAULT_TIMEOUT : ℚ := 3

/-- Outcome of `WriterThread._terminate_safely(proc)`. -/
inductive TermResult where
  /-- `communicate(timeout=3.0)` returned: the subprocess exited in time. -/
  | graceful
  /-- `communicate` raised `subprocess.TimeoutExpired`; the handler clause
  `except TimeoutExpired:` evaluates the unbound name `TimeoutExpired` and
  raises `NameError`, so `proc.kill()` is never executed. -/
  | nameErrorNoKill
  deriving Repr, DecidableEq

/-- `_terminate_safely`, parametrised by whether the subprocess exits
within `DEFAULT_TIMEOUT` of its stdin being closed. -/
def terminate_safely (exitsInTime : Bool) : TermResult :=
  if exitsInTime then .graceful else .nameErrorNoKill

/-- Result of one `WriterThread.run` execution: the bytes written to the
encoder's stdin, and whether the `# close the pipe` section (which calls
`_terminate_safely`) was reached — `none` means the loop exited by a path
that never releases the subprocess. -/
structure WriterRun where
  written : List Pixel
  release : Option TermResult
  deriving Repr, DecidableEq

/-- The `WriterThread.run` loop over the queue entries in pop order.
`sinkOk k` tells whether the `k`-th `self._sink.write` succeeds (a broken
pipe raises, which the surrounding `try`/`except` turns into a `break`);
`abortAt = some k` means `signal()` set `self._toquit` and the loop top
observes it at iteration `k`, upon which the code runs
`self._container.close()` (an `AttributeError`: no such attribute exists)
and in any case `return`s before the `# close the pipe` section. -/
def writerPass (sinkOk : Nat → Bool) (exitsInTime : Bool)
    (abortAt : Option Nat) : Nat → List (Option Frame) → WriterRun
  | _, [] => ⟨[], none⟩
  | k, item :: rest =>
    if abortAt = some k then ⟨[], none⟩
    else
      match item with
      | none => ⟨[], some (terminate_safely exitsInTime)⟩
      | some f =>
        if sinkOk k then
          let r := writerPass sinkOk exitsInTime abortAt (k + 1) rest
          ⟨f.tobytes ++ r.written, r.release⟩
        else ⟨[], some (terminate_safely exitsInTime)⟩

/-- `WriterThread.run` on a queue in deque representation. -/
def writerDrain (sinkOk : Nat → Bool) (exitsInTime : Bool)
    (abortAt : Option Nat) (q : List (Option Frame)) : WriterRun :=
  writerPass sinkOk exitsInTime abortAt 0 q.reverse

/-- In a failure-free, abort-free run, the writer serialises every frame up
to the sentinel, in order, and then releases the subprocess. -/
theorem writerPass_ok (k : Nat) (items : List Frame) :
    writerPass (fun _ => true) true none k (items.map some ++ [none]) =
      ⟨(items.map Frame.tobytes).flatten, some .graceful⟩ := by
  induction items generalizing k with
  | nil => rfl
  | cons f fs ih =>
    simp [writerPass, ih, terminate_safely, List.append_eq]

/-! ## `BufferThread.push` and the frame pool

```python
def push(self, frame):
    if frame is not None:
        img = None
        self._use_buf.lock()
        try:
            if self._in_buf == 0:
                _LOGGER.error("***FATAL*** ran out of buffer!")
            else:
                img = self._buffer.pop()
                self._in_buf -= 1
        finally:
            self._use_buf.unlock()
        if img is None:
            img = frame.copy()
        else:
            img[:] = frame
    else:
        img = None
    self._mutex.lock()
    try:
        self._queue.appendleft(img)
        self._count += 1
        self._signal.wakeAll()
    finally:
        self._mutex.unlock()
```

On exhaustion (`_in_buf == 0`) the method logs an error, then allocates a
fresh copy of the frame (`frame.copy()`) and enqueues it exactly as if a
pool buffer had been used; `self._toquit` is untouched and no Qt signal is
emitted (`interruptAcquisition` has no `.emit` call anywhere in the
repository).  Either way the enqueued array holds the bytes of `frame`.
-/

structure BufState where
  /-- `self._in_buf`: number of available pool buffers. -/
  in_buf : Nat
  /-- `self._queue` (deque representation: head = left end). -/
  queue  : List (Option Frame)
  /-- `self._count`. -/
  count  : Nat
  /-- `self._toquit`. -/
  toquit : Bool
  deriving Repr, DecidableEq

/-- `BufferThread.push` (the pool bookkeeping plus the enqueue). -/
def bufPush (s : BufState) (frame : Option Frame) : BufState :=
  match frame with
  | none =>
    { s with queue := appendleft s.queue none, count := s.count + 1 }
  | some f =>
    if s.in_buf = 0 then
      -- logs "***FATAL*** ran out of buffer!", then `img = frame.copy()`
      { s with queue := appendleft s.queue (some f), count := s.count + 1 }
    else
      { s with in_buf := s.in_buf - 1,
               queue := appendleft s.queue (some f), count := s.count + 1 }

/-- `BufferThread.recycle` (the pool bookkeeping). -/
def bufRecycle (s : BufState) : BufState :=
  { s with in_buf := s.in_buf + 1 }

/-- `BufferThread.signal`. -/
def bufSignal (s : BufState) : BufState :=
  { s with toquit := true }

/-! ### Pool conservation counting

For the conservation claim we count, alongside `self._in_buf`, the frames
in flight between `push` and `recycle` (`inflight`).  `recycle` is only
ever called by the writer thread on a frame it received, so an interleaving
is a sequence of `push`/`recycle` events in which `recycle` only occurs
while some frame is in flight; `exec` below returns `none` for sequences
that violate this.
-/

structure PoolState where
  in_buf   : Nat
  inflight : Nat
  deriving Repr, DecidableEq

inductive PoolOp where
  | push
  | recycle
  deriving Repr, DecidableEq

/-- One pool event.  A `push` with an empty pool takes the
`frame.copy()` branch: the pool is left untouched but the (freshly
allocated) frame still goes in flight, and is later `recycle`d into the
pool like any other frame. -/
def poolStep (s : PoolState) (op : PoolOp) : Option PoolState :=
  match op with
  | .push =>
    if s.in_buf = 0 then some ⟨s.in_buf, s.inflight + 1⟩
    else some ⟨s.in_buf - 1, s.inflight + 1⟩
  | .recycle =>
    if s.inflight = 0 then none
    else some ⟨s.in_buf + 1, s.inflight - 1⟩

def poolExec (s : PoolState) : List PoolOp → Option PoolState
  | [] => some s
  | op :: rest => (poolStep s op).bind (fun s' => poolExec s' rest)

/-- Whether every `push` of the sequence finds an available buffer. -/
def noExhaustion (s : PoolState) : List PoolOp → Bool
  | [] => true
  | op :: rest =>
    match poolStep s op with
    | none => false
    | some s' => (decide (op = .push → s.in_buf ≠ 0)) && noExhaustion s' rest

theorem poolExec_conservation {numBuffer : Nat} {ops : List PoolOp}
    {s₀ sEnd : PoolState}
    (hinv : s₀.in_buf + s₀.inflight = numBuffer)
    (hne : noExhaustion s₀ ops = true)
    (hexec : poolExec s₀ ops = some sEnd) :
    sEnd.in_buf + sEnd.inflight = numBuffer := by
  induction ops generalizing s₀ with
  | nil =>
    simp only [poolExec, Option.some_inj] at hexec
    exact hexec ▸ hinv
  | cons op rest ih =>
    simp only [poolExec] at hexec
    simp only [noExhaustion] at hne
    cases hstep : poolStep s₀ op with
    | none => rw [hstep] at hexec hne; simp at hexec
    | some s₁ =>
      rw [hstep] at hexec hne
      simp only [Option.some_bind, Bool.and_eq_true, decide_eq_true_eq] at hexec hne
      refine ih ?_ hne.2 hexec
      cases op with
      | push =>
        have hbuf : s₀.in_buf ≠ 0 := hne.1 rfl
        simp only [poolStep, if_neg hbuf, Option.some_inj] at hstep
        subst hstep; simp; omega
      | recycle =>
        simp only [poolStep] at hstep
        by_cases hz : s₀.inflight = 0
        · rw [if_pos hz] at hstep; simp at hstep
        · rw [if_neg hz] at hstep
          simp only [Option.some_inj] at hstep
          subst hstep; simp; omega

/-! ## `StorageService.write` (ic_grab lineage)

```python
def write(self, index, frame):
    sink = self._sink
    while index > self._nextindex:
        sink.write(self._empty.tobytes())
        self._nextindex += 1
    sink.write(self._convert(frame).tobytes())
    self._nextindex += 1
```

Here `sink` is the encoder subprocess's stdin and the writes happen on the
calling thread (the capture callback thread); there is no `try`/`except`,
so an exception raised by `sink.write` (e.g. `BrokenPipeError` after the
subprocess died) propagates to the caller.  `sinkOk = false` models a
broken sink.
-/

structure ICState where
  nextindex : Nat
  written   : List Pixel
  deriving Repr, DecidableEq

def icFillLoop (rows cols index : Nat) (s : ICState) : ICState :=
  if s.nextindex < index then
    icFillLoop rows cols index
      ⟨s.nextindex + 1, s.written ++ (emptyFrame rows cols).tobytes⟩
  else s
termination_by index - s.nextindex

/-- ic_grab `StorageService.write`: the first `sink.write` on a broken sink
raises, and the exception leaves `write` uncaught. -/
def icWrite (rows cols : Nat) (sinkOk : Bool) (s : ICState) (index : Nat)
    (frame : Frame) : Except Unit ICState :=
  if sinkOk then
    .ok ⟨(icFillLoop rows cols index s).nextindex + 1,
         (icFillLoop rows cols index s).written ++ (convert frame).tobytes⟩
  else .error ()

/-- lab_grab `StorageService.write` including its `try`/`except`:
`pushOk = false` models an exception raised anywhere in the `try` body; the
handler calls `sink.signal()`, `sink.wait()` and discards the sink, and
does not re-raise. -/
structure LabWriteResult where
  state       : StorageState
  /-- The `except` branch ran: the sink was signalled to abort and
  `self._sink` was set to `None`. -/
  sinkDropped : Bool
  deriving Repr, DecidableEq

def labWrite (rows cols : Nat) (pushOk : Bool) (s : StorageState)
    (index : Nat) (frame : Frame) : Except String LabWriteResult :=
  if pushOk then .ok ⟨svcWrite rows cols s index frame, false⟩
  else .ok ⟨s, true⟩

/-! ## Quality mappings (`lab_grab/ui/encoding.py`)

```python
def mjpeg_quality_option(value):
    quality = 31 + round((1 - value) * 29 / 99)
    return [ "-q:v", str(quality) ]

def h264_nvenc_quality_option(value):
    quality = 43 + round((1 - value) * 33 / 99)
    return [ "-rc:v", "vbr", "-cq:v", str(quality) ]
```

Python's built-in `round` rounds half to even.  The rounded quantity is the
exact rational `(1 - value) * 29 / 99` (resp. `* 33 / 99`); its double
numerator `2 * 29 * (1 - value)` is even while a half-integer over
denominator `99` requires an odd multiple of `99`, so the argument is never
an exact tie, and it is at distance at least `1/198` from every tie, far
beyond the error of the double-precision float Python actually rounds.
Hence Python's `round` here agrees with exact rational rounding-to-nearest,
which `pyRound` implements (including the — unreachable — half-to-even
branch) on the fraction `num / den` with `den > 0`.
-/

def pyRound (num den : ℤ) : ℤ :=
  let f := Int.fdiv num den
  let r2 := 2 * (num - f * den)
  if r2 < den then f
  else if den < r2 then f + 1
  else if f % 2 = 0 then f else f + 1

/-- The `-q:v` value computed by `mjpeg_quality_option(value)`. -/
def mjpegQ (value : ℤ) : ℤ := 31 + pyRound ((1 - value) * 29) 99

/-- The `-cq:v` value computed by `h264_nvenc_quality_option(value)`. -/
def nvencQ (value : ℤ) : ℤ := 43 + pyRound ((1 - value) * 33) 99

def mjpeg_quality_option (value : ℤ) : List String :=
  [ "-q:v", toString (mjpegQ value) ]

def h264_nvenc_quality_option (value : ℤ) : List String :=
  [ "-rc:v", "vbr", "-cq:v", toString (nvencQ value) ]

/-- One descent step of both mappings on the quality range `1..99`. -/
theorem quality_step_anti :
    ∀ k : Fin 99, mjpegQ ((k : ℕ) + 2) ≤ mjpegQ ((k : ℕ) + 1) ∧
      nvencQ ((k : ℕ) + 2) ≤ nvencQ ((k : ℕ) + 1) := by decide

theorem quality_anti_of_add {q : ℤ} (n : ℕ) (h1 : 1 ≤ q)
    (h100 : q + n ≤ 100) :
    mjpegQ (q + n) ≤ mjpegQ q ∧ nvencQ (q + n) ≤ nvencQ q := by
  induction n with
  | zero => simp
  | succ m ih =>
    have hm : q + m ≤ 100 := by omega
    obtain ⟨ihm, ihn⟩ := ih hm
    have hk : ((q + m - 1).toNat : ℤ) = q + m - 1 := by omega
    have hklt : (q + m - 1).toNat < 99 := by omega
    have step := quality_step_anti ⟨(q + m - 1).toNat, hklt⟩
    have e1 : (((q + m - 1).toNat : ℕ) : ℤ) + 2 = q + (m + 1) := by omega
    have e2 : (((q + m - 1).toNat : ℕ) : ℤ) + 1 = q + m := by omega
    rw [e1, e2] at step
    constructor
    · calc mjpegQ (q + (m + 1 : ℕ)) = mjpegQ (q + ((m : ℤ) + 1)) := by push_cast; ring_nf
        _ ≤ mjpegQ (q + m) := step.1
        _ ≤ mjpegQ q := ihm
    · calc nvencQ (q + (m + 1 : ℕ)) = nvencQ (q + ((m : ℤ) + 1)) := by push_cast; ring_nf
        _ ≤ nvencQ (q + m) := step.2
        _ ≤ nvencQ q := ihn

/-- Antitonicity of both quality mappings over the documented range. -/
theorem quality_anti {q1 q2 : ℤ} (h1 : 1 ≤ q1) (h12 : q1 ≤ q2)
    (h2 : q2 ≤ 100) :
    mjpegQ q2 ≤ mjpegQ q1 ∧ nvencQ q2 ≤ nvencQ q1 := by
  have hn : q1 + ((q2 - q1).toNat : ℤ) = q2 := by omega
  have := quality_anti_of_add (q := q1) (q2 - q1).toNat h1 (by omega)
  rwa [hn] at this

/-! ## `EncodingDevices` availability cache (`ic_grab/ui/storage.py`)

```python
class EncodingDevices:
    _availability = dict()

    @classmethod
    def available(cls, device):
        device = str(device)
        if device not in cls._availability.keys():
            cls._availability[device] = cls.check_availability(device)
        return cls._availability[device]
```

The probing function `check_availability` runs external commands
(`nvidia-smi`); we abstract it as an arbitrary function
`check : String → Bool` of the device name (fixed for the machine).  The
cache dict is modelled as an association list.  Each `available` call
reports the probes it performed (the names it called `check` on).
-/

abbrev AvailCache := List (String × Bool)

/-- Entries of the cache record actual probe results. -/
def cacheFaithful (check : String → Bool) (cache : AvailCache) : Prop :=
  ∀ p ∈ cache, p.2 = check p.1

/-- `EncodingDevices.available(device)`: result, updated cache, probed
names (empty on a cache hit). -/
def available (check : String → Bool) (cache : AvailCache)
    (device : String) : Bool × AvailCache × List String :=
  match cache.lookup device with
  | some b => (b, cache, [])
  | none => (check device, (device, check device) :: cache, [device])

/-- A sequence of `available` calls: the list of results, the final cache,
and the concatenation of all probed names. -/
def availCalls (check : String → Bool) (cache : AvailCache) :
    List String → List Bool × AvailCache × List String
  | [] => ([], cache, [])
  | d :: rest =>
    let r := available check cache d
    let t := availCalls check r.2.1 rest
    (r.1 :: t.1, t.2.1, r.2.2 ++ t.2.2)

theorem lookup_faithful {check : String → Bool} {cache : AvailCache}
    (h : cacheFaithful check cache) {d : String} {b : Bool}
    (hl : cache.lookup d = some b) : b = check d := by
  induction cache with
  | nil => simp [List.lookup] at hl
  | cons p rest ih =>
    rw [List.lookup] at hl
    by_cases hd : d = p.1
    · have : (d == p.1) = true := beq_iff_eq.mpr hd
      rw [this] at hl
      simp only [Option.some_inj] at hl
      rw [← hl, hd]
      exact h p (by simp)
    · have : (d == p.1) = false := beq_eq_false_iff_ne.mpr hd
      rw [this] at hl
      exact ih (fun p hp => h p (by simp [hp])) hl

theorem available_faithful {check : String → Bool} {cache : AvailCache}
    (h : cacheFaithful check cache) (d : String) :
    (available check cache d).1 = check d ∧
      cacheFaithful check (available check cache d).2.1 := by
  unfold available
  cases hl : cache.lookup d with
  | none =>
    refine ⟨rfl, ?_⟩
    intro p hp
    rcases List.mem_cons.mp hp with rfl | hp
    · rfl
    · exact h p hp
  | some b => exact ⟨lookup_faithful h hl, h⟩

/-- Every `available` call of a sequence returns the machine's actual probe
result for its device name. -/
theorem availCalls_results {check : String → Bool} {cache : AvailCache}
    (h : cacheFaithful check cache) (names : List String) :
    (availCalls check cache names).1 = names.map check := by
  induction names generalizing cache with
  | nil => rfl
  | cons d rest ih =>
    obtain ⟨h1, h2⟩ := available_faithful h d
    simp only [availCalls, List.map_cons, h1, ih h2]

theorem available_lookup_after (check : String → Bool) (cache : AvailCache)
    (d : String) : ((available check cache d).2.1.lookup d).isSome := by
  unfold available
  cases hl : cache.lookup d with
  | none => simp [List.lookup]
  | some b => simp [hl]

theorem available_preserves_lookup (check : String → Bool)
    (cache : AvailCache) (d e : String)
    (h : (cache.lookup e).isSome) :
    ((available check cache d).2.1.lookup e).isSome := by
  unfold available
  cases hl : cache.lookup d with
  | none =>
    rw [List.lookup]
    cases he : e == d
    · simpa using h
    · simp
  | some b => simpa using h

/-- A device whose name is already cached is never probed again. -/
theorem availCalls_no_probe_if_cached {check : String → Bool}
    {cache : AvailCache} {d : String} (names : List String)
    (h : (cache.lookup d).isSome) :
    (availCalls check cache names).2.2.count d = 0 := by
  induction names generalizing cache with
  | nil => rfl
  | cons n rest ih =>
    simp only [availCalls, List.count_append]
    have hrest := ih (available_preserves_lookup check cache n d h)
    rw [hrest]
    unfold available
    cases hl : cache.lookup n with
    | some b => simp
    | none =>
      simp only [List.count_cons, List.count_nil]
      have hne : d ≠ n := by
        intro he
        rw [he, hl] at h
        simp at h
      simp [hne, Ne.symm hne]

/-- `check_availability` is invoked at most once per device name across any
sequence of `available` calls. -/
theorem availCalls_probe_once (check : String → Bool) (names : List String)
    (d : String) :
    ∀ cache : AvailCache,
      (availCalls check cache names).2.2.count d ≤ 1 := by
  induction names with
  | nil => intro cache; simp [availCalls]
  | cons n rest ih =>
    intro cache
    simp only [availCalls, List.count_append]
    unfold available
    cases hl : cache.lookup n with
    | some b =>
      simpa using ih cache
    | none =>
      simp only [List.count_cons, List.count_nil, Nat.zero_add]
      by_cases hd : d = n
      · subst hd
        have : (availCalls check ((d, check d) :: cache) rest).2.2.count d = 0 :=
          availCalls_no_probe_if_cached rest (by simp [List.lookup])
        simp [this]
      · have : ((n == d) = false) := beq_eq_false_iff_ne.mpr (Ne.symm hd)
        rw [this]
        simpa using ih ((n, check n) :: cache)

/-! ### The encoder list

ic_grab `storage.py`:

```python
BASE_ENCODER_LIST = (
    Encoder("Raw video", EncodingDevices.NONE,   ".avi", "rawvideo", "yuv420p"),
    Encoder("MJPEG",     EncodingDevices.CPU,    ".avi", "mjpeg",    "yuvj420p"),
    Encoder("MJPEG",     EncodingDevices.QSV,    ".avi", "mjpeg_qsv", "yuvj420p"),
    Encoder("H.264",     EncodingDevices.NVIDIA, ".avi", "h264_nvenc", "yuv420p"),
)
...
DEFAULT_ENCODERS = tuple(enc for enc in BASE_ENCODER_LIST
                         if EncodingDevices.available(enc.device))
...
def list_encoders(self):
    return self.DEFAULT_ENCODERS
```
-/

structure Encoder where
  name    : String
  device  : String
  suffix  : String
  vcodec  : String
  pix_fmt : String
  deriving Repr, DecidableEq

def BASE_ENCODER_LIST : List Encoder :=
  [ ⟨"Raw video", "None", ".avi", "rawvideo", "yuv420p"⟩,
    ⟨"MJPEG", "CPU", ".avi", "mjpeg", "yuvj420p"⟩,
    ⟨"MJPEG", "Intel-QSV CPU", ".avi", "mjpeg_qsv", "yuvj420p"⟩,
    ⟨"H.264", "NVIDIA GPU", ".avi", "h264_nvenc", "yuv420p"⟩ ]

/-- The comprehension building `DEFAULT_ENCODERS`, threading the
availability cache left to right. -/
def defaultEncoders (check : String → Bool) (cache : AvailCache) :
    List Encoder → List Encoder × AvailCache
  | [] => ([], cache)
  | e :: rest =>
    let r := available check cache e.device
    let t := defaultEncoders check r.2.1 rest
    (if r.1 then e :: t.1 else t.1, t.2)

/-- `StorageService.list_encoders()` returns `DEFAULT_ENCODERS`, computed
once from an initially empty cache. -/
def list_encoders (check : String → Bool) : List Encoder :=
  (defaultEncoders check [] BASE_ENCODER_LIST).1

theorem defaultEncoders_filter {check : String → Bool} {cache : AvailCache}
    (h : cacheFaithful check cache) (l : List Encoder) :
    (defaultEncoders check cache l).1 =
      l.filter (fun e => check e.device) := by
  induction l generalizing cache with
  | nil => rfl
  | cons e rest ih =>
    obtain ⟨h1, h2⟩ := available_faithful h e.device
    simp only [defaultEncoders, h1, List.filter_cons, ih h2]

/-- ic_grab `EncodingDevices.check_availability`, with the machine's GPU
count as a parameter (`number_of_nvidia_gpus()`): `NONE` and `CPU` are
always available, QSV detection is hard-disabled, NVIDIA requires at least
one GPU, unknown names are unavailable. -/
def check_availability (nvidiaGPUs : Nat) (device : String) : Bool :=
  if device = "None" then true
  else if device = "CPU" then true
  else if device = "Intel-QSV CPU" then false
  else if device = "NVIDIA GPU" then decide (0 < nvidiaGPUs)
  else false

/-! ## `StorageService` quality setting (lab_grab)

```python
QUALITY_RANGE = (1, 100)

def getQuality(self):
    return self._quality

def setQuality(self, value):
    self._quality = int(value)
    ...

def prepare(self, framerate=30, descriptor=None):
    options = _encoding.Options(self._encoder, ..., quality=self._quality)
    ...
```

`setQuality` stores `int(value)` without consulting `QUALITY_RANGE`; on an
integer argument `int` is the identity.  `prepare` forwards the stored
value into `encoding.Options`, whose `quality` field
`Encoder.as_ffmpeg_command` hands to the codec's quality-option function.
-/

def QUALITY_RANGE : ℤ × ℤ := (1, 100)

structure SvcConfig where
  quality : ℤ
  deriving Repr, DecidableEq

def getQuality (s : SvcConfig) : ℤ := s.quality

def setQuality (s : SvcConfig) (value : ℤ) : SvcConfig :=
  { s with quality := value }

/-- The `quality` field of the `encoding.Options` that `prepare` builds. -/
def prepareOptionsQuality (s : SvcConfig) : ℤ := s.quality

/-! ## Claim theorems -/

theorem writeIndexed_enumFrom (rows cols : Nat) (frames : List Frame) :
    ∀ (k : Nat) (pfx : List (Option Frame)),
      writeIndexed rows cols ⟨k, pfx⟩ (List.enumFrom k frames) =
        ⟨k + frames.length, pfx ++ frames.map (fun f => some (convert f))⟩ := by
  induction frames with
  | nil => intro k pfx; simp [writeIndexed, List.enumFrom]
  | cons f fs ih =>
    intro k pfx
    have hfirst : svcWrite rows cols ⟨k, pfx⟩ k f =
        ⟨k + 1, pfx ++ [some (convert f)]⟩ :=
      svcWrite_late f (le_refl k)
    simp only [List.enumFrom, writeIndexed, List.foldl_cons]
    rw [hfirst]
    have h2 := ih (k + 1) (pfx ++ [some (convert f)])
    simp only [writeIndexed] at h2
    rw [h2]
    simp only [StorageState.mk.injEq, List.map_cons, List.length_cons,
      List.append_assoc, List.singleton_append]
    exact ⟨by omega, trivial⟩

theorem writeIndexed_enum (rows cols : Nat) (frames : List Frame) :
    writeIndexed rows cols prepareState frames.enum =
      ⟨frames.length, frames.map (fun f => some (convert f))⟩ := by
  have := writeIndexed_enumFrom rows cols frames 0 []
  simpa [List.enum, prepareState] using this

/-- C1 — for writes at indices `0, 1, 2, …` (strictly increasing, gapless),
made after `prepare`, the buffer queue and the writer queue each drain in
FIFO push order, every frame pushed before the sentinel is serialised
before the `# close the pipe` step runs, and the bytes delivered to the
encoder's stdin are exactly the concatenation of the converted frames'
bytes in index order — no reordering, duplication, or loss. -/
theorem storage_pipeline_fifo_bytes (rows cols : Nat) (frames : List Frame) :
    bufferDrain (pushAll []
        (svcClose (writeIndexed rows cols prepareState frames.enum)).pushed) =
      (frames.map convert).map some ++ [none]
    ∧ (writerDrain (fun _ => true) true none
        (pushAll [] ((frames.map convert).map some ++ [none]))).written =
      (frames.map (fun f => (convert f).tobytes)).flatten
    ∧ (writerDrain (fun _ => true) true none
        (pushAll [] ((frames.map convert).map some ++ [none]))).release =
      some .graceful := by
  have hpushed :
      (svcClose (writeIndexed rows cols prepareState frames.enum)).pushed =
        (frames.map convert).map some ++ [none] := by
    rw [writeIndexed_enum]
    simp [svcClose, List.map_map]
  have hwriter := writerPass_ok 0 (frames.map convert)
  have hdrain : writerDrain (fun _ => true) true none
      (pushAll [] ((frames.map convert).map some ++ [none])) =
        ⟨((frames.map convert).map Frame.tobytes).flatten, some .graceful⟩ := by
    rw [writerDrain, pushAll_nil_eq_reverse, List.reverse_reverse, hwriter]
  refine ⟨?_, ?_, ?_⟩
  · rw [hpushed]; exact bufferDrain_fifo (frames.map convert)
  · rw [hdrain]
    simp only [List.map_map, Function.comp_def]
  · rw [hdrain]

/-- C2 — a `write(index, frame)` with `index` above the expected-next index
pushes exactly `index - nextindex` filler frames, all zeroed and of the
byte length of a (converted) normal frame, then the frame itself, and
leaves the expected-next index at `index + 1`; in particular `write(0, f0)`
followed by `write(3, f3)` after `prepare` puts exactly two fillers between
the two frames. -/
theorem storage_write_gap_filling (rows cols : Nat) (s : StorageState)
    (index : Nat) (frame f0 f3 : Frame) (hgap : s.nextindex < index)
    (hrect : frame.isRect cols rows) (hcols : 0 < cols) :
    svcWrite rows cols s index frame =
      ⟨index + 1,
       s.pushed ++ List.replicate (index - s.nextindex) (some (emptyFrame rows cols))
                ++ [some (convert frame)]⟩
    ∧ (∀ p ∈ (emptyFrame rows cols).tobytes, p = 0)
    ∧ (emptyFrame rows cols).tobytes.length = (convert frame).tobytes.length
    ∧ (writeIndexed rows cols prepareState [(0, f0), (3, f3)]).pushed =
        [some (convert f0), some (emptyFrame rows cols),
         some (emptyFrame rows cols), some (convert f3)] := by
  refine ⟨svcWrite_gap frame hgap, emptyFrame_tobytes_zero rows cols, ?_, ?_⟩
  · rw [tobytes_length_of_isRect (emptyFrame_isRect rows cols),
      tobytes_length_of_isRect (convert_isRect hcols hrect)]
  · have h0 : svcWrite rows cols prepareState 0 f0 =
        ⟨1, [some (convert f0)]⟩ := by
      have h := @svcWrite_late rows cols prepareState 0 f0 (Nat.zero_le _)
      simpa [prepareState] using h
    have h3 : svcWrite rows cols ⟨1, [some (convert f0)]⟩ 3 f3 =
        ⟨4, [some (convert f0)] ++
            List.replicate 2 (some (emptyFrame rows cols)) ++ [some (convert f3)]⟩ :=
      @svcWrite_gap rows cols ⟨1, [some (convert f0)]⟩ 3 f3 (show 1 < 3 by omega)
    simp only [writeIndexed, List.foldl_cons, List.foldl_nil]
    rw [h0, h3]
    simp [List.replicate_succ]

theorem storage_write_gap_filling_witness :
    (⟨1, ([] : List (Option Frame))⟩ : StorageState).nextindex < 3
    ∧ Frame.isRect [[1, 2], [3, 4], [5, 6]] 3 2
    ∧ 0 < 3
    ∧ (svcWrite 2 3 ⟨1, []⟩ 3 [[1, 2], [3, 4], [5, 6]] =
        ⟨4, [] ++ List.replicate 2 (some (emptyFrame 2 3))
              ++ [some (convert [[1, 2], [3, 4], [5, 6]])]⟩
      ∧ (∀ p ∈ (emptyFrame 2 3).tobytes, p = 0)
      ∧ (emptyFrame 2 3).tobytes.length =
          (convert [[1, 2], [3, 4], [5, 6]]).tobytes.length
      ∧ (writeIndexed 2 3 prepareState
            [(0, [[9]]), (3, [[8]])]).pushed =
          [some (convert [[9]]), some (emptyFrame 2 3),
           some (emptyFrame 2 3), some (convert [[8]])]) :=
  ⟨by decide, by constructor <;> decide, by decide,
   storage_write_gap_filling 2 3 ⟨1, []⟩ 3 [[1, 2], [3, 4], [5, 6]] [[9]] [[8]]
     (by decide) (by constructor <;> decide) (by decide)⟩

/-- C9 — a `write(index, frame)` whose `index` is at or below the
expected-next index inserts no filler, still pushes the (converted) frame,
and increments the expected-next index by exactly one: late or duplicate
indices are neither rejected nor dropped nor reordered. -/
theorem storage_write_late_index (rows cols : Nat) (s : StorageState)
    (index : Nat) (frame : Frame) (h : index ≤ s.nextindex) :
    svcWrite rows cols s index frame =
      ⟨s.nextindex + 1, s.pushed ++ [some (convert frame)]⟩ :=
  svcWrite_late frame h

theorem storage_write_late_index_witness :
    3 ≤ (⟨5, ([] : List (Option Frame))⟩ : StorageState).nextindex
    ∧ svcWrite 1 1 ⟨5, []⟩ 3 [[7]] = ⟨6, [] ++ [some (convert [[7]])]⟩ :=
  ⟨by decide, storage_write_late_index 1 1 ⟨5, []⟩ 3 [[7]] (by decide)⟩

/-- C3 (counterexample to the claim as stated) — with `num_buffer = 1`,
the interleaving push, push, recycle, recycle (the second push hitting an
exhausted pool, so `BufferThread.push` falls back to `frame.copy()`, whose
later `recycle` still appends to the pool) ends with `_in_buf = 2` and
nothing in flight: `checked_out + available = 2 ≠ 1`, so conservation does
not hold for every interleaving. -/
theorem pool_conservation_cex :
    poolExec ⟨1, 0⟩ [.push, .push, .recycle, .recycle] = some ⟨2, 0⟩
    ∧ (2 : Nat) + 0 ≠ 1 := by decide

/-- C3 (amended) — for every interleaving of `push` and `recycle` in which
each `push` finds a buffer available (no pool exhaustion), the number of
frames in flight between `push` and `recycle` plus `_in_buf` equals
`num_buffer` at all times; in particular after a full drain (nothing left
in flight) `_in_buf = num_buffer` again. -/
theorem pool_conservation (numBuffer : Nat) (ops : List PoolOp)
    (sEnd : PoolState)
    (hne : noExhaustion ⟨numBuffer, 0⟩ ops = true)
    (hexec : poolExec ⟨numBuffer, 0⟩ ops = some sEnd) :
    sEnd.in_buf + sEnd.inflight = numBuffer
    ∧ (sEnd.inflight = 0 → sEnd.in_buf = numBuffer) := by
  have h := @poolExec_conservation numBuffer ops ⟨numBuffer, 0⟩ sEnd (by simp) hne hexec
  exact ⟨h, fun h0 => by omega⟩

theorem pool_conservation_witness :
    noExhaustion ⟨2, 0⟩ [.push, .recycle] = true
    ∧ poolExec ⟨2, 0⟩ [.push, .recycle] = some ⟨2, 0⟩
    ∧ ((2 : Nat) + 0 = 2 ∧ ((0 : Nat) = 0 → (2 : Nat) = 2)) :=
  ⟨by decide, by decide,
   pool_conservation 2 [.push, .recycle] ⟨2, 0⟩ (by decide) (by decide)⟩

/-- C4 (counterexample to the claim as stated) — a `push` on an exhausted
pool (`_in_buf = 0`) enqueues a freshly allocated copy of the frame and
continues: the queue grows, `_toquit` stays `false` (no abort), and the
pipeline proceeds as if nothing happened, instead of raising a
pipeline-interrupted event. -/
theorem pool_exhaustion_continues_cex :
    bufPush ⟨0, [], 0, false⟩ (some [[7]]) = ⟨0, [some [[7]]], 1, false⟩ := by
  decide

/-- C4 (amended) — when `BufferThread.push` finds no buffer available it
logs an error, dynamically allocates `frame.copy()`, and enqueues it; the
pool and the `_toquit` flag are untouched, no interruption is signalled and
no abort is triggered, and processing continues. -/
theorem pool_exhaustion_continues (s : BufState) (f : Frame)
    (h : s.in_buf = 0) :
    bufPush s (some f) =
      { s with queue := appendleft s.queue (some f), count := s.count + 1 } := by
  simp [bufPush, h]

theorem pool_exhaustion_continues_witness :
    (⟨0, [], 0, false⟩ : BufState).in_buf = 0
    ∧ bufPush ⟨0, [], 0, false⟩ (some [[1]]) = ⟨0, [some [[1]]], 1, false⟩ :=
  ⟨rfl, pool_exhaustion_continues ⟨0, [], 0, false⟩ [[1]] rfl⟩

/-- C5 — the two broken release paths of `WriterThread`, evaluated: when
`signal()` aborts the loop (`_toquit` observed at the loop top), `run`
returns without ever reaching the `# close the pipe` section, so the
subprocess is not released at all; and when the subprocess does not exit
within `DEFAULT_TIMEOUT`, `_terminate_safely`'s `except TimeoutExpired:`
clause evaluates an unbound name and raises `NameError`, so the promised
`proc.kill()`-and-wait never happens. -/
theorem writer_release_paths_broken :
    (writerDrain (fun _ => true) true (some 0) [some [[1]]]).release = none
    ∧ terminate_safely false = .nameErrorNoKill
    ∧ DEFAULT_TIMEOUT = 3 := by
  refine ⟨?_, rfl, rfl⟩
  rfl

/-- C6 (counterexample to the claim as stated) — in the ic_grab lineage
`StorageService.write` calls `sink.write` directly on the caller's (capture
callback) thread with no `try`/`except`: on a broken sink the exception
propagates synchronously out of `write`. -/
theorem write_error_propagates_cex :
    icWrite 2 2 false ⟨0, []⟩ 0 [[1, 2], [3, 4]] = .error () := rfl

/-- C6 (amended) — in the lab_grab lineage, an error inside
`StorageService.write` is caught by its `try`/`except` and never re-raised
(the call always returns), and a failing `self._sink.write` on the writer
thread makes its loop stop at the failed frame and still run the
`# close the pipe` section; no exception crosses to the capture callback
thread from the encode thread. -/
theorem write_error_contained (rows cols : Nat) (pushOk : Bool)
    (s : StorageState) (index : Nat) (frame f : Frame)
    (rest : List (Option Frame)) (exitsInTime : Bool) :
    (labWrite rows cols pushOk s index frame).isOk = true
    ∧ writerDrain (fun _ => false) exitsInTime none
        (pushAll [] (some f :: rest)) =
      ⟨[], some (terminate_safely exitsInTime)⟩ := by
  constructor
  · cases pushOk <;> rfl
  · rw [writerDrain, pushAll_nil_eq_reverse, List.reverse_reverse]
    simp [writerPass]

/-- C7 — both quality mappings are antitone on the documented quality range
`1..100` (higher perceptual quality gives a lower or equal internal encoder
parameter), the MJPEG `-q:v` value stays within `[2, 31]` with `100 ↦ 2`
and `1 ↦ 31`, and the NVEnc `-cq:v` value stays within `[10, 43]` with
`100 ↦ 10` and `1 ↦ 43`. -/
theorem quality_options_monotone (q1 q2 : ℤ) (h1 : 1 ≤ q1) (h12 : q1 ≤ q2)
    (h2 : q2 ≤ 100) :
    mjpegQ q2 ≤ mjpegQ q1 ∧ nvencQ q2 ≤ nvencQ q1
    ∧ (2 ≤ mjpegQ q1 ∧ mjpegQ q1 ≤ 31)
    ∧ (10 ≤ nvencQ q1 ∧ nvencQ q1 ≤ 43)
    ∧ mjpegQ 100 = 2 ∧ mjpegQ 1 = 31 ∧ nvencQ 100 = 10 ∧ nvencQ 1 = 43
    ∧ mjpeg_quality_option q1 = [ "-q:v", toString (mjpegQ q1) ]
    ∧ h264_nvenc_quality_option q1 =
        [ "-rc:v", "vbr", "-cq:v", toString (nvencQ q1) ] := by
  have hq1 : q1 ≤ 100 := le_trans h12 h2
  obtain ⟨hm, hn⟩ := quality_anti h1 h12 h2
  obtain ⟨hm100, hn100⟩ := quality_anti h1 hq1 (le_refl 100)
  obtain ⟨hm1, hn1⟩ := quality_anti (le_refl 1) h1 hq1
  have e1 : mjpegQ 100 = 2 := by decide
  have e2 : mjpegQ 1 = 31 := by decide
  have e3 : nvencQ 100 = 10 := by decide
  have e4 : nvencQ 1 = 43 := by decide
  refine ⟨hm, hn, ⟨?_, ?_⟩, ⟨?_, ?_⟩, e1, e2, e3, e4, rfl, rfl⟩
  · rw [← e1]; exact hm100
  · rw [← e2]; exact hm1
  · rw [← e3]; exact hn100
  · rw [← e4]; exact hn1

theorem quality_options_monotone_witness :
    (1 : ℤ) ≤ 50 ∧ (50 : ℤ) ≤ 60 ∧ (60 : ℤ) ≤ 100
    ∧ (mjpegQ 60 ≤ mjpegQ 50 ∧ nvencQ 60 ≤ nvencQ 50
      ∧ (2 ≤ mjpegQ 50 ∧ mjpegQ 50 ≤ 31)
      ∧ (10 ≤ nvencQ 50 ∧ nvencQ 50 ≤ 43)
      ∧ mjpegQ 100 = 2 ∧ mjpegQ 1 = 31 ∧ nvencQ 100 = 10 ∧ nvencQ 1 = 43
      ∧ mjpeg_quality_option 50 = [ "-q:v", toString (mjpegQ 50) ]
      ∧ h264_nvenc_quality_option 50 =
          [ "-rc:v", "vbr", "-cq:v", toString (nvencQ 50) ]) :=
  ⟨by decide, by decide, by decide,
   quality_options_monotone 50 60 (by decide) (by decide) (by decide)⟩

/-- C8 — `EncodingDevices.available` probes each device name at most once
across any sequence of calls from a fresh cache, every call (first or
repeated) returns the machine's probe result for its name, and
`list_encoders` returns exactly the encoders of `BASE_ENCODER_LIST` whose
device probe succeeded — an unavailable codec never appears. -/
theorem availability_cached_filter (check : String → Bool)
    (names : List String) (d : String) :
    (availCalls check [] names).1 = names.map check
    ∧ (availCalls check [] names).2.2.count d ≤ 1
    ∧ list_encoders check = BASE_ENCODER_LIST.filter (fun e => check e.device)
    ∧ (∀ e ∈ list_encoders check, check e.device = true) := by
  have hfaith : cacheFaithful check [] := by intro p hp; simp at hp
  refine ⟨availCalls_results hfaith names, availCalls_probe_once check names d [],
    defaultEncoders_filter hfaith BASE_ENCODER_LIST, ?_⟩
  intro e he
  rw [list_encoders, defaultEncoders_filter hfaith] at he
  exact (List.mem_filter.mp he).2

/-- C10 — `setQuality` stores any integer unvalidated and unclamped against
`QUALITY_RANGE = (1, 100)`, `getQuality` returns exactly it, `prepare`
forwards it unmodified into the codec quality-option mapping, and values
outside the range produce encoder parameters outside the documented
`[2, 31]` / `[10, 43]` windows (e.g. `200 ↦ -27` / `-23`, and
`-100 ↦ 61` / `77`). -/
theorem quality_not_clamped (s : SvcConfig) (v : ℤ) :
    getQuality (setQuality s v) = v
    ∧ prepareOptionsQuality (setQuality s v) = v
    ∧ mjpeg_quality_option (prepareOptionsQuality (setQuality s v)) =
        [ "-q:v", toString (mjpegQ v) ]
    ∧ QUALITY_RANGE = (1, 100)
    ∧ (mjpegQ 200 = -27 ∧ nvencQ 200 = -23
      ∧ mjpegQ (-100) = 61 ∧ nvencQ (-100) = 77) := by
  refine ⟨rfl, rfl, rfl, rfl, ?_, ?_, ?_, ?_⟩ <;> decide

end LabGrab